import Mathlib

/-!
Verification of the multi-objective bipartite community-detection core of
the MEAN-partite repository (src/moo/multicriteria.py), as a shallow
embedding in Lean 4.

Conventions of the embedding:
  - Python floats are modelled as rationals.
  - numpy random draws are modelled by explicit draw parameters: a call of
    np.random.random or np.random.uniform becomes a rational parameter, a
    call of np.random.randint becomes a natural parameter fed to the
    function randint below.
  - Vertices are natural numbers below the vertex count; adjacency lists
    are lists of lists of vertices; genomes are lists of integers.
  - Fallible code (a Python assert or an IndexError on list indexing)
    returns Except.
  - The external igraph library is modelled from its documented behaviour:
    connected-component membership labels components by order of first
    discovery (vertex 0 first), which the functions mergeLabels and
    denseLabels below implement.
-/

namespace MooMulticriteria

/-! ## MultiCriteriaProblem construction (multicriteria.py lines 104-111)

The constructor sets n_obj_ to 2, then overwrites it with 3 when mode is
"3d"; in the "4d" branch the assignment writes the attribute n_obj instead
of n_obj_ (line 109), so n_obj_ keeps the value 2, and n_obj_ is what is
passed to the pymoo base constructor as the declared objective count. -/
def n_obj_declared (mode : String) : Nat :=
  let n0 : Nat := 2
  let n1 : Nat := if mode = "3d" then 3 else n0
  -- the branch "if self.mode_ == '4d': self.n_obj = 4" assigns a different
  -- attribute (n_obj, not n_obj_), so it does not change the value below
  n1

/-- Objective vector built by MultiCriteriaProblem._evaluate
(multicriteria.py lines 177-194).  The igraph modularity scores are
external computations, passed here as parameters q1 (projection 1), q2
(projection 2) and q (whole graph); num_clusters is the decoded cluster
count.  The elif chain of the source is mirrored exactly. -/
def evaluate_out_F (mode : String) (q1 q2 q : ℚ) (num_clusters : Nat) : List ℚ :=
  if mode = "3d" then [-q1, -q2, (num_clusters : ℚ)]
  else if mode = "4d" then [-q1, -q2, -q, (num_clusters : ℚ)]
  else if mode = "2d" then [-q, (num_clusters : ℚ)]
  else []

/-! ## Mutation operators -/

/-- Model of np.random.randint(lo, hi) given the underlying uniform draw
u: the result is lo + (u mod (hi - lo)), a value in [lo, hi) when
lo < hi. -/
def randint (lo hi : ℤ) (u : Nat) : ℤ :=
  lo + ((u % (hi - lo).toNat : Nat) : ℤ)

/-- PizMutation._do (multicriteria.py lines 30-43).  X is the population
matrix; r i l is the np.random.random() draw for individual i, gene l;
u i l the draw behind np.random.randint.  The replacement threshold of the
source is prob = 1.0 / len(X), where len(X) is the number of rows
(individuals) of the population matrix; the lower and upper gene bounds
are problem.xl[l] = 0 and problem.xu[l] = deg l (the vertex indegree), so
the replacement is randint(0 + 1, deg l + 1). -/
def pizMutation_do (deg : Nat → Nat) (r : Nat → Nat → ℚ) (u : Nat → Nat → Nat)
    (X : List (List ℤ)) : List (List ℤ) :=
  (List.range X.length).map fun i =>
    (List.range ((X.getD i []).length)).map fun l =>
      if r i l < 1 / (X.length : ℚ) then randint ((0 : ℤ) + 1) ((deg l : ℤ) + 1) (u i l)
      else (X.getD i []).getD l 0

/-- Modelled from the spec: the uniform (Pizzuti) mutation as the claim
states it, with per-gene replacement probability 1 / n_var where n_var is
the number of design variables (the genome length), instead of the
1 / len(X) used by the source. -/
def pizMutation_doClaim (deg : Nat → Nat) (r : Nat → Nat → ℚ) (u : Nat → Nat → Nat)
    (X : List (List ℤ)) : List (List ℤ) :=
  (List.range X.length).map fun i =>
    (List.range ((X.getD i []).length)).map fun l =>
      if r i l < 1 / (((X.getD i []).length : ℚ)) then randint ((0 : ℤ) + 1) ((deg l : ℤ) + 1) (u i l)
      else (X.getD i []).getD l 0

/-- Truncation of a rational toward zero, the effect of storing a Python
float into the int64 numpy array edge_p = np.full(len(adj_list[l]), -1)
(multicriteria.py line 68). -/
def truncInt (b : ℚ) : ℤ :=
  if b < 0 then -(Int.floor (-b)) else Int.floor b

/-- Inner scan of HOCMutation._do (multicriteria.py lines 67-78): walk the
neighbours of the mutated vertex in adjacency order, accumulating
cp = cp + float(edge_p[h]) / float(total) where edge_p[h] is the
betweenness of the h-th incident edge truncated to an integer by the int64
array store, and total the untruncated sum; return the first h with
rnd < cp, or none when the loop exhausts. -/
def hocScan (total : ℚ) (rnd : ℚ) : List ℚ → Nat → ℚ → Option Nat
  | [], _, _ => none
  | b :: rest, h, cp =>
    let cp2 := cp + ((truncInt b : ℚ) / total)
    if rnd < cp2 then some h else hocScan total rnd rest (h + 1) cp2

/-- Gene-level selection of HOCMutation._do (multicriteria.py lines
62-79): v is first drawn uniformly by np.random.randint (parameter v0
here); the cumulative scan over the incident-edge betweennesses bs then
overwrites v with h+1 at the first h whose cumulative probability exceeds
the uniform draw rnd, and leaves the initial draw v0 in place when no h
qualifies.  total = sum(edges["bs"]) is the untruncated betweenness sum
over the incident edges of the vertex. -/
def hocSelect (bs : List ℚ) (rnd : ℚ) (v0 : ℤ) : ℤ :=
  match hocScan bs.sum rnd bs 0 0 with
  | some h => (h : ℤ) + 1
  | none => v0

/-- Modelled from the spec: the selection as the claim states it, with
exact (untruncated) normalized probabilities edge_p[h] = bs h / total and
a fallback to the last index when rounding makes no cumulative probability
exceed the draw. -/
def hocScanClaim (total : ℚ) (rnd : ℚ) : List ℚ → Nat → ℚ → Option Nat
  | [], _, _ => none
  | b :: rest, h, cp =>
    let cp2 := cp + b / total
    if rnd < cp2 then some h else hocScanClaim total rnd rest (h + 1) cp2

/-- Modelled from the spec: gene-level selection per the claim (exact
probabilities, fallback to the last index, whose selected value is the
neighbour count). -/
def hocSelectClaim (bs : List ℚ) (rnd : ℚ) : ℤ :=
  match hocScanClaim bs.sum rnd bs 0 0 with
  | some h => (h : ℤ) + 1
  | none => (bs.length : ℤ)

/-- Cumulative truncated probability after the first k neighbours, used to
characterize hocSelect. -/
def hocTruncCum (bs : List ℚ) (k : Nat) : ℚ :=
  ((bs.take k).map fun b => (truncInt b : ℚ) / bs.sum).sum

/-- Characterization of the gene-level selection: find the first neighbour
index whose cumulative truncated probability exceeds the draw, else keep
the initial uniform draw v0. -/
def hocSelectAmended (bs : List ℚ) (rnd : ℚ) (v0 : ℤ) : ℤ :=
  match (List.range bs.length).find? (fun h => decide (rnd < hocTruncCum bs (h + 1))) with
  | some h => (h : ℤ) + 1
  | none => v0

/-- HOCMutation._do (multicriteria.py lines 50-81).  prob2 l is the
normalized vertex betweenness of vertex l (problem.prob2); bs l the list
of betweenness scores of the edges incident to l, in adjacency-list order
(edges.select / edge["bs"]); r i l the np.random.random() mutation draw;
rnd i l the np.random.uniform() cumulative-sampling draw; v0 i l the
initial np.random.randint(xl[l]+1, xu[l]+1) draw. -/
def hocMutation_do (prob2 : Nat → ℚ) (bs : Nat → List ℚ) (r rnd : Nat → Nat → ℚ)
    (v0 : Nat → Nat → ℤ) (X : List (List ℤ)) : List (List ℤ) :=
  (List.range X.length).map fun i =>
    (List.range ((X.getD i []).length)).map fun l =>
      if r i l < prob2 l then hocSelect (bs l) (rnd i l) (v0 i l)
      else (X.getD i []).getD l 0

/-! ## Genome decoding (multicriteria.py lines 161-175)

MultiCriteriaProblem._evaluate first builds sol_edges: for each vertex i
with gene x[i] > 0 it appends the edge [i, adj_list[i][x[i]-1]]; genes
x[i] <= 0 contribute no edge (the comment at line 164 documents this only
for 0, but the test "if x[i] > 0" treats every non-positive gene the same
way).  A gene larger than the neighbour count makes the Python list
indexing raise an IndexError, modelled as Except.error. -/
def buildSolEdgesAux (adj : List (List Nat)) (x : List ℤ) :
    List Nat → List (Nat × Nat) → Except String (List (Nat × Nat))
  | [], es => Except.ok es
  | i :: rest, es =>
    let xi := x.getD i 0
    if 0 < xi then
      let nbrs := adj.getD i []
      if (xi - 1).toNat < nbrs.length then
        buildSolEdgesAux adj x rest (es ++ [(i, nbrs.getD (xi - 1).toNat 0)])
      else Except.error "IndexError: list index out of range"
    else buildSolEdgesAux adj x rest es

/-- The sol_edges loop of _evaluate over i in range(n_var), starting from
an empty edge list. -/
def buildSolEdges (adj : List (List Nat)) (x : List ℤ) : Except String (List (Nat × Nat)) :=
  buildSolEdgesAux adj x (List.range adj.length) []

/-- One union step of the connected-component computation: make the label
of the component of e.1 equal to the label of the component of e.2 by
rewriting every occurrence of the first label.  Models one edge of
igraph.Graph.Bipartite(...).clusters() being taken into account. -/
def mergeEdge (labels : List Nat) (e : Nat × Nat) : List Nat :=
  let la := labels.getD e.1 0
  let lb := labels.getD e.2 0
  labels.map fun v => if v = la then lb else v

/-- Raw component labels of the graph on vertices 0..n-1 with the given
undirected edges: every vertex starts in its own component and each edge
merges two components. -/
def mergeLabels (n : Nat) (edges : List (Nat × Nat)) : List Nat :=
  edges.foldl mergeEdge (List.range n)

/-- Relabel a label list densely by order of first occurrence: the first
distinct value becomes 0, the next new value 1, and so on. -/
def denseAux (seen : List Nat) : List Nat → List Nat
  | [] => []
  | v :: rest =>
    if v ∈ seen then seen.indexOf v :: denseAux seen rest
    else seen.length :: denseAux (seen ++ [v]) rest

/-- Dense first-occurrence relabeling, starting with no value seen. -/
def denseLabels (ls : List Nat) : List Nat := denseAux [] ls

/-- Modelled from the documented behaviour of the external igraph library:
t.clusters().membership assigns each of the n vertices the index of its
connected component, components numbered 0, 1, 2, ... in order of first
discovery (vertex 0's component is 0). -/
def clusters_membership (n : Nat) (edges : List (Nat × Nat)) : List Nat :=
  denseLabels (mergeLabels n edges)

/-- num_clusters = max(c.membership) + 1 (multicriteria.py line 175). -/
def num_clusters (membership : List Nat) : Nat :=
  membership.foldr max 0 + 1

/-- Decoding part of _evaluate: build the genome-selected edges, then the
component membership of the n_var vertices. -/
def evaluate_decode (adj : List (List Nat)) (x : List ℤ) : Except String (List Nat) :=
  Except.map (fun es => clusters_membership adj.length es) (buildSolEdges adj x)

/-! ## Result collation (multicriteria.py lines 390-447) -/

/-- One result record of collate_results: the tuple built at lines
433-438, whose components are (in order) the detector name, the cluster
count, and the ten numeric metric scores, matching the cols list at lines
445-446. -/
structure ResultRecord where
  name : String
  num_clusters : Nat
  modularity_score : ℚ
  modularity_score_1 : ℚ
  modularity_score_2 : ℚ
  adj_rand_index : ℚ
  modularity_score_barber : ℚ
  conductance : ℚ
  coverage : ℚ
  performance : ℚ
  gini : ℚ
  modularity_score_murata : ℚ
deriving DecidableEq

/-- Final deduplication step of collate_results (lines 442-447): the list
temp_results of result tuples is turned into the Python set
results_set = set(temp_results), from which the result dicts are built.  A
Python set keeps exactly one copy of each distinct tuple; List.dedup
models it. -/
def collate_results_dedup (temp_results : List ResultRecord) : List ResultRecord :=
  temp_results.dedup

/-! ## Bipartite performance (multicriteria.py lines 501-513) -/

/-- Loop condition of bi_performance for the pair (i, j): either the edge
(i, j) exists and both endpoints share a community, or it does not exist
and the communities differ; the Upper vertex j is indexed at
badj.shape[0] + j in the communities list. -/
abbrev pairCorrect (edges : Finset (Nat × Nat)) (communities : List Nat)
    (nL i j : Nat) : Prop :=
  ((i, j) ∈ edges ∧ communities.getD i 0 = communities.getD (nL + j) 0) ∨
  ((i, j) ∉ edges ∧ communities.getD i 0 ≠ communities.getD (nL + j) 0)

/-- bi_performance (multicriteria.py lines 501-513): nL and nU are the
biadjacency shape, edges the set built from the coo row/column arrays;
the nested loops count the correct pairs and the function returns
perf_pairs / poss_edges. -/
def bi_performance (nL nU : Nat) (edges : Finset (Nat × Nat))
    (communities : List Nat) : ℚ :=
  let poss_edges : Nat := nL * nU
  let perf_pairs : Nat := (List.range nL).foldl (fun acc i =>
    (List.range nU).foldl (fun acc2 j =>
      if pairCorrect edges communities nL i j then acc2 + 1 else acc2) acc) 0
  (perf_pairs : ℚ) / (poss_edges : ℚ)

/-! ## MST population seeding, diversity phase (multicriteria.py lines 327-351) -/

/-- Inner j-loop of the diversity phase of initialize_pop (lines
343-347): zero gene j of the row whenever the gene is nonzero, its
selected edge crosses a community boundary of the current dendrogram cut
(membership list test), and the vertex degree bound xu[j] exceeds 1. -/
def diversityRow (adj : List (List Nat)) (xu : List Nat) (test : List Nat)
    (n : Nat) (row : List ℤ) : List ℤ :=
  (List.range n).foldl (fun r j =>
    if r.getD j 0 ≠ 0 ∧
        test.getD ((adj.getD j []).getD (r.getD j 0 - 1).toNat 0) 0 ≠ test.getD j 0 then
      if 1 < xu.getD j 0 then r.set j 0 else r
    else r) row

/-- Steps 2-3 of the MST-based initialize_pop (lines 327-351): duplicate
the seed genome x into popsize identical rows (np.tile), then for cut
levels k = 2 .. min(popsize, n_var) rewrite row ctr = k - 1 by zeroing
boundary-crossing genes; test k stands for the membership of the external
fastgreedy dendrogram cut at k clusters (test_hc.as_clustering(k)). -/
def initialize_pop_mst (popsize n : Nat) (adj : List (List Nat)) (xu : List Nat)
    (test : Nat → List Nat) (x : List ℤ) : List (List ℤ) :=
  let pop := List.replicate popsize x
  ((List.range (min popsize n - 1)).map fun t => t + 2).foldl
    (fun p k => p.set (k - 1) (diversityRow adj xu (test k) n (p.getD (k - 1) []))) pop

/-! ## MST-based genome seeding (multicriteria.py lines 276-325)

recursive_links carries three mutable accumulators across call frames: the
genome x under construction, the decoded edge list temp_edges and the
binary_links vector.  They are bundled into the state below.  The Python
recursion has no explicit bound; it terminates because each productive
call marks one more vertex visited, so the recursion depth is bounded by
the vertex count.  The embedding makes this bound explicit with a fuel
parameter, and the seeding below runs with fuel n + 1, which the lemmas
show is never exhausted. -/
structure RLState where
  x : List ℤ
  temp_edges : List (Nat × Nat)
  binary_links : List ℤ
deriving DecidableEq

/-- Body of the j-loop of recursive_links (multicriteria.py lines
284-288): for every j with a[node][j] = origin, set x[node] = j + 1,
binary_links[node] = origin and append [node, origin] to temp_edges. -/
def set_link (a : List (List Nat)) (node origin : Nat) (s : RLState) : RLState :=
  (List.range ((a.getD node []).length)).foldl
    (fun t j => if (a.getD node []).getD j 0 = origin then
        { x := t.x.set node ((j : ℤ) + 1),
          temp_edges := t.temp_edges ++ [(node, origin)],
          binary_links := t.binary_links.set node (origin : ℤ) }
      else t) s

/-- recursive_links (multicriteria.py lines 276-294): return immediately
when the node was already visited (x[node] != -1), otherwise set the link
to the originating node and recurse on all MST neighbours. -/
def recursive_links (a mst : List (List Nat)) : Nat → Nat → Nat → RLState → RLState
  | 0, _, _, s => s
  | fuel + 1, node, origin, s =>
    if s.x.getD node (-1) ≠ -1 then s
    else
      (mst.getD node []).foldl (fun t c => recursive_links a mst fuel c node t)
        (set_link a node origin s)

/-- Initial accumulators of initialize_pop (lines 302-304): x and
binary_links filled with -1, temp_edges empty. -/
def initState (n : Nat) : RLState :=
  { x := List.replicate n (-1), temp_edges := [], binary_links := List.replicate n (-1) }

/-- One iteration of the seeding loop of initialize_pop (lines 321-325):
when vertex i is still unvisited, make it a root (gene 0) and launch
recursive_links on each of its MST neighbours. -/
def seedStep (a mst : List (List Nat)) (fuel : Nat) (s : RLState) (i : Nat) : RLState :=
  if s.x.getD i (-1) = -1 then
    (mst.getD i []).foldl (fun t c => recursive_links a mst fuel c i t)
      { s with x := s.x.set i 0 }
  else s

/-- The full seeding loop over i in range(n_var). -/
def initializeSeed (a mst : List (List Nat)) (n fuel : Nat) : RLState :=
  (List.range n).foldl (seedStep a mst fuel) (initState n)

/-- The MST-derived seed genome of initialize_pop, with fuel n + 1. -/
def seedX (a mst : List (List Nat)) : List ℤ :=
  (initializeSeed a mst a.length (a.length + 1)).x

/-- One breadth step of MST reachability: add every MST neighbour of an
already reached vertex. -/
def reachStep (mst : List (List Nat)) (S : List Nat) : List Nat :=
  S ++ ((S.flatMap fun u => mst.getD u []).filter fun v => decide (v ∉ S))

/-- Vertices reachable from vertex 0 in the MST within k steps; used to
state that the MST spans the graph. -/
def reachN (mst : List (List Nat)) : Nat → List Nat
  | 0 => [0]
  | k + 1 => reachStep mst (reachN mst k)

/-- Parent chains of a genome: vertex v reaches a root by repeatedly
following the selected neighbour, every link being a valid adjacency-list
entry. -/
inductive Chain (a : List (List Nat)) (x : List ℤ) : Nat → Prop
  | root (v : Nat) : x.getD v (-1) = 0 → Chain a x v
  | step (v j : Nat) : x.getD v (-1) = (j : ℤ) + 1 → j < (a.getD v []).length →
      Chain a x ((a.getD v []).getD j 0) → Chain a x v

/-- Number of still-unvisited vertices of a seeding state. -/
def unvisCnt (n : Nat) (s : RLState) : Nat :=
  (List.range n).countP fun v => decide (s.x.getD v (-1) = -1)

/-- Invariant of the seeding: every visited vertex has a parent chain. -/
def chainInv (a : List (List Nat)) (s : RLState) : Prop :=
  ∀ v, s.x.getD v (-1) ≠ -1 → Chain a s.x v

/-! ## Hypervolume entry guard (multicriteria.py lines 449-451) -/

/-- Entry guard of compute_hypervolume: the two asserts at lines 450-451.
assert self.results_ fails exactly when the results list is empty (an
empty Python list is falsy); assert self.params_["save_history"] fails
when history retention was disabled.  The computation past the guard calls
the external pymoo Hypervolume indicator and is abstracted as Unit. -/
def compute_hypervolume_guard (results : List ResultRecord) (save_history : Bool) :
    Except String Unit :=
  if results = [] then
    Except.error "Results are not generated yet, please run the community detection first!"
  else if save_history = false then
    Except.error "History is not saved, not possible to calculate the hypervolume indicator!"
  else Except.ok ()

end MooMulticriteria

namespace MooMulticriteria

/-! ## Generic list helpers -/

theorem getD_map_range {α : Type} (f : Nat → α) (n i : Nat) (d : α) (h : i < n) :
    ((List.range n).map f).getD i d = f i := by
  rw [List.getD_eq_getElem?_getD]
  have hlen : i < ((List.range n).map f).length := by simpa using h
  rw [List.getElem?_eq_getElem hlen]
  simp

theorem randint_mem_range (lo hi : ℤ) (u : Nat) (h : lo < hi) :
    lo ≤ randint lo hi u ∧ randint lo hi u < hi := by
  unfold randint
  have hpos : 0 < (hi - lo).toNat := by omega
  have hm : u % (hi - lo).toNat < (hi - lo).toNat := Nat.mod_lt _ hpos
  omega

/-! ## Theorems for claims C1, C2, C3, C7, C9 -/

/-- Claim C1: in mode 4d the evaluation always returns an objective vector
of length 4 of the stated shape, but the problem instance declares only 2
objectives, because the constructor assigns self.n_obj instead of
self.n_obj_ at line 109; the declared objective count therefore does not
match the objective-vector length in mode 4d.  The code contradicts its
own comment ("Number of objectives") at that line. -/
theorem C1_objective_count_mismatch :
    (∀ q1 q2 q : ℚ, ∀ k : Nat,
      evaluate_out_F "4d" q1 q2 q k = [-q1, -q2, -q, (k : ℚ)] ∧
      (evaluate_out_F "4d" q1 q2 q k).length = 4) ∧
    n_obj_declared "4d" = 2 := by
  constructor
  · intro q1 q2 q k
    constructor <;> rfl
  · rfl

/-- Claim C7: the collated results contain no two records with an
identical full metric tuple — the Python set built at line 443 removes
structural duplicates before the result dicts are emitted. -/
theorem C7_collate_results_no_duplicates (temp_results : List ResultRecord) :
    (collate_results_dedup temp_results).Pairwise (fun a b => a ≠ b) :=
  List.nodup_dedup temp_results

/-- Claim C9: requesting the hypervolume computation with no results yet
produced, or with per-generation history retention disabled, hits one of
the two asserts at lines 450-451 and raises a fatal usage error instead of
returning silently. -/
theorem C9_hypervolume_guard_fatal (results : List ResultRecord) (save_history : Bool)
    (h : results = [] ∨ save_history = false) :
    ∃ msg, compute_hypervolume_guard results save_history = Except.error msg := by
  unfold compute_hypervolume_guard
  rcases h with h | h
  · subst h
    exact ⟨_, rfl⟩
  · subst h
    by_cases hr : results = []
    · simp [hr]
    · simp [hr]

/-- Witness for C9 at a concrete input: an empty result list with history
retention on is rejected. -/
theorem C9_hypervolume_guard_fatal_witness :
    ∃ msg, compute_hypervolume_guard [] true = Except.error msg :=
  C9_hypervolume_guard_fatal [] true (Or.inl rfl)

/-- Counterexample to claim C2: with a population of 2 individuals of 4
genes each (all of degree 1) and a uniform draw of 3/10 at every gene, the
source mutation replaces every gene (3/10 is below prob = 1/len(X) = 1/2),
while the claimed rule (replace exactly when the draw is below
1/n_var = 1/4) leaves every gene unchanged. -/
theorem C2_counterexample :
    pizMutation_do (fun _ => 1) (fun _ _ => (3 : ℚ)/10) (fun _ _ => 0)
        [[0, 0, 0, 0], [0, 0, 0, 0]] = [[1, 1, 1, 1], [1, 1, 1, 1]] ∧
    pizMutation_doClaim (fun _ => 1) (fun _ _ => (3 : ℚ)/10) (fun _ _ => 0)
        [[0, 0, 0, 0], [0, 0, 0, 0]] = [[0, 0, 0, 0], [0, 0, 0, 0]] := by
  constructor
  · simp only [pizMutation_do]
    norm_num [List.range_succ, randint, List.replicate_succ]
  · simp only [pizMutation_doClaim]
    norm_num [List.range_succ, randint, List.replicate_succ]

/-- Claim C2 as amended: in the uniform (Pizzuti) mutation each gene is
replaced exactly when the drawn uniform random number is below
1/len(X), where len(X) is the number of individuals of the population
matrix (not 1/n_var), and the replacement value is drawn uniformly from
[1, deg l]. -/
theorem C2_amended (deg : Nat → Nat) (r : Nat → Nat → ℚ) (u : Nat → Nat → Nat)
    (X : List (List ℤ)) (i l : Nat)
    (hi : i < X.length) (hl : l < (X.getD i []).length) (hdeg : 1 ≤ deg l) :
    (((pizMutation_do deg r u X).getD i []).getD l 0 =
      if r i l < 1 / (X.length : ℚ) then randint ((0 : ℤ) + 1) ((deg l : ℤ) + 1) (u i l)
      else (X.getD i []).getD l 0) ∧
    (r i l < 1 / (X.length : ℚ) →
      1 ≤ ((pizMutation_do deg r u X).getD i []).getD l 0 ∧
      ((pizMutation_do deg r u X).getD i []).getD l 0 ≤ (deg l : ℤ)) := by
  have hrow : (pizMutation_do deg r u X).getD i [] =
      (List.range ((X.getD i []).length)).map fun l =>
        if r i l < 1 / (X.length : ℚ) then randint ((0 : ℤ) + 1) ((deg l : ℤ) + 1) (u i l)
        else (X.getD i []).getD l 0 :=
    getD_map_range _ _ _ _ hi
  have hgene : ((pizMutation_do deg r u X).getD i []).getD l 0 =
      if r i l < 1 / (X.length : ℚ) then randint ((0 : ℤ) + 1) ((deg l : ℤ) + 1) (u i l)
      else (X.getD i []).getD l 0 := by
    rw [hrow]
    exact getD_map_range _ _ _ _ hl
  refine ⟨hgene, fun hlt => ?_⟩
  rw [hgene, if_pos hlt]
  have hb : ((0 : ℤ) + 1) < (deg l : ℤ) + 1 := by
    have : (1 : ℤ) ≤ (deg l : ℤ) := by exact_mod_cast hdeg
    omega
  have := randint_mem_range ((0 : ℤ) + 1) ((deg l : ℤ) + 1) (u i l) hb
  omega

/-- Characterization of hocScan as a first-index search over cumulative
truncated probabilities. -/
theorem hocScan_eq_find (total rnd : ℚ) (bs : List ℚ) :
    ∀ (h0 : Nat) (cp0 : ℚ),
      hocScan total rnd bs h0 cp0 =
        ((List.range bs.length).find?
          (fun k => decide (rnd < cp0 + ((bs.take (k + 1)).map fun b => (truncInt b : ℚ) / total).sum))).map
          (fun k => k + h0) := by
  induction bs with
  | nil => intro h0 cp0; simp [hocScan]
  | cons b rest ih =>
    intro h0 cp0
    by_cases hlt : rnd < cp0 + ((truncInt b : ℚ) / total)
    · rw [List.length_cons, List.range_succ_eq_map,
        List.find?_cons_of_pos _ (by simp [hlt])]
      simp [hocScan, hlt]
    · rw [List.length_cons, List.range_succ_eq_map,
        List.find?_cons_of_neg _ (by simp [hlt]), List.find?_map]
      have hswap : ((fun k => decide (rnd < cp0 +
            (((b :: rest).take (k + 1)).map fun x => (truncInt x : ℚ) / total).sum)) ∘ Nat.succ)
          = fun k => decide (rnd < (cp0 + (truncInt b : ℚ) / total) +
            ((rest.take (k + 1)).map fun x => (truncInt x : ℚ) / total).sum) := by
        funext k
        simp only [Function.comp_apply, Nat.succ_eq_add_one, List.take_succ_cons,
          List.map_cons, List.sum_cons, decide_eq_decide]
        constructor <;> intro h <;> linarith
      rw [hswap]
      have hstep : hocScan total rnd (b :: rest) h0 cp0 =
          hocScan total rnd rest (h0 + 1) (cp0 + ((truncInt b : ℚ) / total)) := by
        simp [hocScan, hlt]
      rw [hstep, ih (h0 + 1) (cp0 + ((truncInt b : ℚ) / total)), Option.map_map]
      congr 1
      funext k
      simp [Function.comp]
      omega

/-- The source gene-level selection equals its first-index
characterization. -/
theorem hocSelect_eq_amended (bs : List ℚ) (rnd : ℚ) (v0 : ℤ) :
    hocSelect bs rnd v0 = hocSelectAmended bs rnd v0 := by
  unfold hocSelect hocSelectAmended
  rw [hocScan_eq_find bs.sum rnd bs 0 0]
  have hpred : (fun k => decide (rnd < 0 +
        ((bs.take (k + 1)).map fun b => (truncInt b : ℚ) / bs.sum).sum))
      = fun k => decide (rnd < hocTruncCum bs (k + 1)) := by
    funext k
    simp [hocTruncCum]
  rw [hpred]
  cases hfind : (List.range bs.length).find? (fun k => decide (rnd < hocTruncCum bs (k + 1))) with
  | none => simp
  | some h => simp

/-- Counterexample to claim C3: the vertex has two incident edges of
betweenness 3/2 each; storing them into the int64 array edge_p truncates
both to 1, so with total = 3 the cumulative probabilities are 1/3 and 2/3.
With cumulative-sampling draw 9/10 no index qualifies, and the mutated
gene keeps the initial uniform np.random.randint draw (here 1), whereas
the claim (exact probabilities 1/2 and 1, fallback to the last index)
selects index 2; the population gene becomes 1, not 2. -/
theorem C3_counterexample :
    hocMutation_do (fun l => if l = 0 then 1 else 0) (fun _ => [3/2, 3/2])
        (fun _ _ => 0) (fun _ _ => (9 : ℚ)/10) (fun _ _ => 1) [[5, 7]] = [[1, 7]] ∧
    hocSelectClaim [3/2, 3/2] ((9 : ℚ)/10) = 2 := by
  constructor
  · simp only [hocMutation_do]
    norm_num [List.range_succ, hocSelect, hocScan, truncInt]
  · norm_num [hocSelectClaim, hocScanClaim]

/-- Claim C3 as amended: whenever gene l is mutated, edge_p[h] holds the
h-th incident edge betweenness truncated to an integer (the int64 numpy
store), the normalized cumulative probabilities use those truncated
numerators over the untruncated total, the first index whose cumulative
probability exceeds the uniform draw is selected, and when no cumulative
probability exceeds the draw the gene keeps the initial uniformly drawn
replacement value v0 (not the last index). -/
theorem C3_amended (prob2 : Nat → ℚ) (bs : Nat → List ℚ) (r rnd : Nat → Nat → ℚ)
    (v0 : Nat → Nat → ℤ) (X : List (List ℤ)) (i l : Nat)
    (hi : i < X.length) (hl : l < (X.getD i []).length) (hmut : r i l < prob2 l) :
    ((hocMutation_do prob2 bs r rnd v0 X).getD i []).getD l 0 =
      hocSelectAmended (bs l) (rnd i l) (v0 i l) := by
  have hrow : (hocMutation_do prob2 bs r rnd v0 X).getD i [] =
      (List.range ((X.getD i []).length)).map fun l =>
        if r i l < prob2 l then hocSelect (bs l) (rnd i l) (v0 i l)
        else (X.getD i []).getD l 0 :=
    getD_map_range _ _ _ _ hi
  rw [hrow, getD_map_range _ _ _ _ hl, if_pos hmut]
  exact hocSelect_eq_amended _ _ _

/-- Witness for the amended claim C3 at the counterexample input: the
mutated gene equals the first-index characterization value. -/
theorem C3_amended_witness :
    ((hocMutation_do (fun l => if l = 0 then 1 else 0) (fun _ => [3/2, 3/2])
        (fun _ _ => 0) (fun _ _ => (9 : ℚ)/10) (fun _ _ => 1) [[5, 7]]).getD 0 []).getD 0 0 =
      hocSelectAmended [3/2, 3/2] ((9 : ℚ)/10) 1 :=
  C3_amended (fun l => if l = 0 then 1 else 0) (fun _ => [3/2, 3/2])
    (fun _ _ => 0) (fun _ _ => (9 : ℚ)/10) (fun _ _ => 1) [[5, 7]] 0 0
    (by decide) (by decide) (by norm_num)

/-- Witness for the amended claim C2 at a concrete input: in a population
of 2 individuals with 4 genes of degree 1 and draw 3/10, the mutated gene
lies in [1, deg] = [1, 1]. -/
theorem C2_amended_witness :
    1 ≤ ((pizMutation_do (fun _ => 1) (fun _ _ => (3 : ℚ)/10) (fun _ _ => 0)
        [[0, 0, 0, 0], [0, 0, 0, 0]]).getD 0 []).getD 0 0 ∧
    ((pizMutation_do (fun _ => 1) (fun _ _ => (3 : ℚ)/10) (fun _ _ => 0)
        [[0, 0, 0, 0], [0, 0, 0, 0]]).getD 0 []).getD 0 0 ≤ ((1 : Nat) : ℤ) :=
  (C2_amended (fun _ => 1) (fun _ _ => (3 : ℚ)/10) (fun _ _ => 0)
    [[0, 0, 0, 0], [0, 0, 0, 0]] 0 0 (by decide) (by decide) (by decide)).2
    (by norm_num)

/-! ## Decoder lemmas and theorems for claims C4 and C5 -/

/-- The edge-building loop raises an error exactly when some processed
index carries a gene exceeding its neighbour count. -/
theorem buildSolEdgesAux_error_iff (adj : List (List Nat)) (x : List ℤ) :
    ∀ (l : List Nat) (es : List (Nat × Nat)),
      (∃ e, buildSolEdgesAux adj x l es = Except.error e) ↔
        ∃ i ∈ l, ((adj.getD i []).length : ℤ) < x.getD i 0 := by
  intro l
  induction l with
  | nil =>
    intro es
    simp [buildSolEdgesAux]
  | cons i rest ih =>
    intro es
    by_cases hpos : 0 < x.getD i 0
    · by_cases hidx : (x.getD i 0 - 1).toNat < (adj.getD i []).length
      · have hnotex : ¬ ((adj.getD i []).length : ℤ) < x.getD i 0 := by omega
        simp only [buildSolEdgesAux, if_pos hpos, if_pos hidx]
        rw [ih]
        constructor
        · rintro ⟨j, hj, hJ⟩
          exact ⟨j, List.mem_cons_of_mem i hj, hJ⟩
        · rintro ⟨j, hj, hJ⟩
          rcases List.mem_cons.mp hj with h | h
          · subst h
            exact absurd hJ hnotex
          · exact ⟨j, h, hJ⟩
      · have hex : ((adj.getD i []).length : ℤ) < x.getD i 0 := by omega
        simp only [buildSolEdgesAux, if_pos hpos, if_neg hidx]
        constructor
        · intro _
          exact ⟨i, List.mem_cons_self i rest, hex⟩
        · intro _
          exact ⟨_, rfl⟩
    · have hnotex : ¬ ((adj.getD i []).length : ℤ) < x.getD i 0 := by omega
      simp only [buildSolEdgesAux, if_neg hpos]
      rw [ih]
      constructor
      · rintro ⟨j, hj, hJ⟩
        exact ⟨j, List.mem_cons_of_mem i hj, hJ⟩
      · rintro ⟨j, hj, hJ⟩
        rcases List.mem_cons.mp hj with h | h
        · subst h
          exact absurd hJ hnotex
        · exact ⟨j, h, hJ⟩

/-- Rewriting every negative gene to 0 does not change the edge-building
loop at all. -/
theorem buildSolEdgesAux_neg_as_zero (adj : List (List Nat)) (x : List ℤ) :
    ∀ (l : List Nat) (es : List (Nat × Nat)),
      buildSolEdgesAux adj x l es =
        buildSolEdgesAux adj (x.map fun g => if g < 0 then 0 else g) l es := by
  intro l
  induction l with
  | nil => intro es; rfl
  | cons i rest ih =>
    intro es
    have hget : (x.map fun g => if g < 0 then 0 else g).getD i 0 =
        if x.getD i 0 < 0 then 0 else x.getD i 0 := by
      have h0 : (0 : ℤ) = if (0 : ℤ) < 0 then 0 else 0 := by norm_num
      rw [show ((x.map fun g => if g < 0 then 0 else g).getD i 0) =
          ((x.map fun g => if g < 0 then 0 else g).getD i (if (0 : ℤ) < 0 then 0 else 0)) by
            rw [← h0]]
      exact List.getD_map x 0 (fun g => if g < 0 then 0 else g)
    by_cases hpos : 0 < x.getD i 0
    · have hpos2 : (0 : ℤ) < (x.map fun g => if g < 0 then 0 else g).getD i 0 := by
        rw [hget]; omega
      have heq : (x.map fun g => if g < 0 then 0 else g).getD i 0 = x.getD i 0 := by
        rw [hget]; omega
      simp only [buildSolEdgesAux, if_pos hpos, if_pos hpos2, heq]
      by_cases hidx : (x.getD i 0 - 1).toNat < (adj.getD i []).length
      · rw [if_pos hidx, if_pos hidx]
        exact ih _
      · rw [if_neg hidx, if_neg hidx]
    · have hpos2 : ¬ (0 : ℤ) < (x.map fun g => if g < 0 then 0 else g).getD i 0 := by
        rw [hget]; omega
      simp only [buildSolEdgesAux, if_neg hpos, if_neg hpos2]
      exact ih _

/-- Counterexample to claim C4: the genome [-5, 0] on the two-vertex path
graph carries the out-of-range gene -5, yet fitness evaluation does not
signal any error: the edge loop returns Except.ok with no edge, exactly
the result of the well-formed all-zero genome, i.e. the negative gene is
silently treated as the valid selection "no edge". -/
theorem C4_counterexample :
    buildSolEdges [[1], [0]] [-5, 0] = Except.ok [] ∧
    buildSolEdges [[1], [0]] [-5, 0] = buildSolEdges [[1], [0]] [0, 0] := by
  constructor <;> rfl

/-- Claim C4 as amended: fitness evaluation raises a fatal (IndexError)
error exactly for genomes containing a gene greater than deg(i); a
negative gene raises nothing and is silently treated as "no edge",
identically to gene 0 (the genome with negatives replaced by 0 evaluates
to the very same result).  No clamping of too-large genes occurs. -/
theorem C4_amended (adj : List (List Nat)) (x : List ℤ) :
    ((∃ e, buildSolEdges adj x = Except.error e) ↔
      ∃ i, i < adj.length ∧ ((adj.getD i []).length : ℤ) < x.getD i 0) ∧
    buildSolEdges adj x = buildSolEdges adj (x.map fun g => if g < 0 then 0 else g) := by
  constructor
  · rw [buildSolEdges, buildSolEdgesAux_error_iff]
    constructor
    · rintro ⟨i, hi, h⟩
      exact ⟨i, List.mem_range.mp hi, h⟩
    · rintro ⟨i, hi, h⟩
      exact ⟨i, List.mem_range.mpr hi, h⟩
  · exact buildSolEdgesAux_neg_as_zero adj x _ _

/-- Every mergeEdge step preserves the length of the label list. -/
theorem mergeEdge_length (labels : List Nat) (e : Nat × Nat) :
    (mergeEdge labels e).length = labels.length :=
  List.length_map _ _

/-- The raw component labels cover exactly the n vertices. -/
theorem mergeLabels_length (n : Nat) (edges : List (Nat × Nat)) :
    (mergeLabels n edges).length = n := by
  rw [mergeLabels]
  have h : ∀ (l : List (Nat × Nat)) (ls : List Nat),
      (l.foldl mergeEdge ls).length = ls.length := by
    intro l
    induction l with
    | nil => intro ls; rfl
    | cons e rest ih =>
      intro ls
      rw [List.foldl_cons, ih, mergeEdge_length]
  rw [h]
  exact List.length_range n

/-- Dense relabeling preserves the length. -/
theorem denseAux_length (l : List Nat) : ∀ (seen : List Nat),
    (denseAux seen l).length = l.length := by
  induction l with
  | nil => intro seen; rfl
  | cons v rest ih =>
    intro seen
    by_cases hv : v ∈ seen
    · simp [denseAux, hv, ih]
    · simp [denseAux, hv, ih]

/-- Every dense label is below the number of seen values plus the number
of remaining entries. -/
theorem denseAux_lt (l : List Nat) : ∀ (seen : List Nat),
    ∀ y ∈ denseAux seen l, y < seen.length + l.length := by
  induction l with
  | nil =>
    intro seen y hy
    simp [denseAux] at hy
  | cons v rest ih =>
    intro seen y hy
    by_cases hv : v ∈ seen
    · rw [denseAux, if_pos hv] at hy
      rcases List.mem_cons.mp hy with h | h
      · subst h
        have := List.indexOf_lt_length.mpr hv
        omega
      · have := ih seen y h
        simp only [List.length_cons]
        omega
    · rw [denseAux, if_neg hv] at hy
      rcases List.mem_cons.mp hy with h | h
      · subst h
        simp only [List.length_cons]
        omega
      · have := ih (seen ++ [v]) y h
        simp only [List.length_append, List.length_cons, List.length_nil] at this ⊢
        omega

/-- Upper bound for a foldr max over a list of bounded naturals. -/
theorem foldr_max_lt (l : List Nat) (n : Nat) (hn : 0 < n)
    (h : ∀ y ∈ l, y < n) : l.foldr max 0 < n := by
  induction l with
  | nil => simpa using hn
  | cons y rest ih =>
    rw [List.foldr_cons]
    have h1 : y < n := h y (List.mem_cons_self y rest)
    have h2 : rest.foldr max 0 < n := ih fun z hz => h z (List.mem_cons_of_mem y hz)
    exact max_lt h1 h2

/-- Claim C5: for every genome whose genes lie in [0, deg(i)], decoding
succeeds and produces exactly one community assignment per vertex (|V|
assignments) with 1 <= num_clusters <= |V|. -/
theorem C5_decode_shape (adj : List (List Nat)) (x : List ℤ)
    (hne : 1 ≤ adj.length)
    (hrange : ∀ i, i < adj.length →
      0 ≤ x.getD i 0 ∧ x.getD i 0 ≤ ((adj.getD i []).length : ℤ)) :
    ∃ m, evaluate_decode adj x = Except.ok m ∧ m.length = adj.length ∧
      1 ≤ num_clusters m ∧ num_clusters m ≤ adj.length := by
  have hnoerr : ¬ ∃ e, buildSolEdges adj x = Except.error e := by
    rw [buildSolEdges, buildSolEdgesAux_error_iff]
    rintro ⟨i, hi, h⟩
    have := (hrange i (List.mem_range.mp hi)).2
    omega
  rcases hres : buildSolEdges adj x with e | es
  · exact absurd ⟨e, hres⟩ hnoerr
  · refine ⟨clusters_membership adj.length es, ?_, ?_, ?_, ?_⟩
    · rw [evaluate_decode, hres]
      rfl
    · rw [clusters_membership, denseLabels, denseAux_length, mergeLabels_length]
    · exact Nat.le_add_left 1 _
    · have hlt : ∀ y ∈ denseLabels (mergeLabels adj.length es), y < adj.length := by
        intro y hy
        have := denseAux_lt (mergeLabels adj.length es) [] y hy
        rw [mergeLabels_length] at this
        simpa using this
      have := foldr_max_lt _ adj.length (by omega) hlt
      rw [clusters_membership, num_clusters]
      omega

/-- Witness for claim C5 at a concrete input: the two-vertex path with
genome [1, 0] decodes to two assignments and one cluster. -/
theorem C5_decode_shape_witness :
    ∃ m, evaluate_decode [[1], [0]] [1, 0] = Except.ok m ∧ m.length = 2 ∧
      1 ≤ num_clusters m ∧ num_clusters m ≤ 2 :=
  C5_decode_shape [[1], [0]] [1, 0] (by decide) (by decide)

/-! ## Counting lemmas and the theorem for claim C8 -/

/-- An if-increment foldl counts the entries satisfying the predicate. -/
theorem foldl_ite_count (p : Nat → Prop) [DecidablePred p] (l : List Nat) :
    ∀ acc : Nat, l.foldl (fun a x => if p x then a + 1 else a) acc =
      acc + l.countP (fun x => decide (p x)) := by
  induction l with
  | nil => intro acc; simp
  | cons x rest ih =>
    intro acc
    rw [List.foldl_cons, ih, List.countP_cons]
    by_cases hx : p x
    · simp [hx]
      omega
    · simp [hx]

/-- Counting over List.range equals the filtered Finset.range card. -/
theorem countP_range_eq_card_filter (p : Nat → Prop) [DecidablePred p] (n : Nat) :
    (List.range n).countP (fun x => decide (p x)) = ((Finset.range n).filter p).card := by
  induction n with
  | zero => simp
  | succ m ih =>
    rw [List.range_succ, List.countP_append, ih, Finset.range_succ, Finset.filter_insert]
    by_cases hm : p m
    · rw [if_pos hm, Finset.card_insert_of_not_mem (by simp)]
      simp [hm]
    · rw [if_neg hm]
      simp [hm]

/-- An accumulating foldl of per-element counts equals the mapped sum. -/
theorem foldl_add_eq_sum (c : Nat → Nat) (l : List Nat) :
    ∀ acc : Nat, l.foldl (fun a i => a + c i) acc = acc + (l.map c).sum := by
  induction l with
  | nil => intro acc; simp
  | cons x rest ih =>
    intro acc
    rw [List.foldl_cons, ih]
    simp only [List.map_cons, List.sum_cons]
    omega

/-- List sum over a range equals the Finset sum over the same range. -/
theorem sum_map_range_eq_sum (c : Nat → Nat) (n : Nat) :
    ((List.range n).map c).sum = ∑ i ∈ Finset.range n, c i := by
  induction n with
  | zero => simp
  | succ m ih =>
    rw [List.range_succ, List.map_append, List.sum_append, ih, Finset.sum_range_succ]
    simp

/-- Claim C8: the bipartite performance equals the number of pairs
(i in Lower, j in Upper) that are either linked and co-clustered or
unlinked and separated, divided by |Lower| * |Upper|. -/
theorem C8_bi_performance_eq (nL nU : Nat) (edges : Finset (Nat × Nat))
    (communities : List Nat) :
    bi_performance nL nU edges communities =
      ((((Finset.range nL ×ˢ Finset.range nU).filter fun p =>
          pairCorrect edges communities nL p.1 p.2).card : Nat) : ℚ) / ((nL * nU : Nat) : ℚ) := by
  have hinner : ∀ acc i, (List.range nU).foldl (fun acc2 j =>
      if pairCorrect edges communities nL i j then acc2 + 1 else acc2) acc =
      acc + ((Finset.range nU).filter fun j => pairCorrect edges communities nL i j).card := by
    intro acc i
    rw [foldl_ite_count, countP_range_eq_card_filter]
  have houter : (List.range nL).foldl (fun acc i =>
      (List.range nU).foldl (fun acc2 j =>
        if pairCorrect edges communities nL i j then acc2 + 1 else acc2) acc) 0 =
      ∑ i ∈ Finset.range nL,
        ((Finset.range nU).filter fun j => pairCorrect edges communities nL i j).card := by
    have hstep : (List.range nL).foldl (fun acc i =>
        (List.range nU).foldl (fun acc2 j =>
          if pairCorrect edges communities nL i j then acc2 + 1 else acc2) acc) 0 =
        (List.range nL).foldl (fun acc i =>
          acc + ((Finset.range nU).filter fun j => pairCorrect edges communities nL i j).card) 0 := by
      apply List.foldl_ext
      intro acc i _
      exact hinner acc i
    rw [hstep, foldl_add_eq_sum, sum_map_range_eq_sum]
    simp
  have hcard : ((Finset.range nL ×ˢ Finset.range nU).filter fun p =>
      pairCorrect edges communities nL p.1 p.2).card =
      ∑ i ∈ Finset.range nL,
        ((Finset.range nU).filter fun j => pairCorrect edges communities nL i j).card := by
    rw [Finset.card_filter, Finset.sum_product]
    congr 1
    funext i
    rw [Finset.card_filter]
  rw [bi_performance, houter, hcard]

/-! ## Frame property of the diversity phase: theorem for claim C10 -/

/-- getD is unchanged by a set at a different index. -/
theorem getD_set_ne {α : Type} (l : List α) (i j : Nat) (a d : α) (h : i ≠ j) :
    (l.set i a).getD j d = l.getD j d := by
  rw [List.getD_eq_getElem?_getD, List.getD_eq_getElem?_getD, List.getElem?_set_ne h]

/-- Claim C10: for every population size >= 1, row 0 of the population
returned by the MST seeding is the untouched seed genome: the diversity
loop only rewrites rows ctr = k - 1 for cut levels k = 2 ..
min(popsize, n_var), i.e. rows 1 .. min(popsize, n_var) - 1. -/
theorem C10_row0_untouched (popsize n : Nat) (adj : List (List Nat)) (xu : List Nat)
    (test : Nat → List Nat) (x : List ℤ) (hpop : 1 ≤ popsize) :
    (initialize_pop_mst popsize n adj xu test x).getD 0 [] = x := by
  rw [initialize_pop_mst]
  have hfold : ∀ (ks : List Nat) (p : List (List ℤ)), (∀ k ∈ ks, k - 1 ≠ 0) →
      (ks.foldl (fun p k =>
        p.set (k - 1) (diversityRow adj xu (test k) n (p.getD (k - 1) []))) p).getD 0 [] =
      p.getD 0 [] := by
    intro ks
    induction ks with
    | nil => intro p _; rfl
    | cons k rest ih =>
      intro p hk
      rw [List.foldl_cons, ih _ fun j hj => hk j (List.mem_cons_of_mem k hj),
        getD_set_ne _ _ _ _ _ (hk k (List.mem_cons_self k rest))]
  rw [hfold]
  · obtain ⟨m, rfl⟩ : ∃ m, popsize = m + 1 := ⟨popsize - 1, by omega⟩
    rw [List.replicate_succ]
    rfl
  · intro k hk
    rcases List.mem_map.mp hk with ⟨t, _, rfl⟩
    omega

/-- Witness for claim C10 at a concrete input: with popsize 2 on the
two-vertex path, row 0 of the initial population equals the seed
genome. -/
theorem C10_row0_untouched_witness :
    (initialize_pop_mst 2 2 [[1], [0]] [1, 1] (fun _ => [0, 0]) [0, 1]).getD 0 [] = [0, 1] :=
  C10_row0_untouched 2 2 [[1], [0]] [1, 1] (fun _ => [0, 0]) [0, 1] (by decide)

/-! ## Generic helpers for the MST seeding development -/

/-- A foldl preserves any invariant preserved by each step. -/
theorem foldl_invariant {α σ : Type} (f : σ → α → σ) (P : σ → Prop) (l : List α) :
    ∀ s : σ, P s → (∀ t c, c ∈ l → P t → P (f t c)) → P (l.foldl f s) := by
  induction l with
  | nil => intro s hs _; exact hs
  | cons c rest ih =>
    intro s hs hstep
    exact ih _ (hstep s c (List.mem_cons_self c rest) hs)
      fun t d hd ht => hstep t d (List.mem_cons_of_mem c hd) ht

/-- getD with a valid index is getElem. -/
theorem getD_eq_getElem {α : Type} (l : List α) (i : Nat) (d : α) (h : i < l.length) :
    l.getD i d = l[i] := by
  rw [List.getD_eq_getElem?_getD, List.getElem?_eq_getElem h]
  rfl

/-- getD with a valid index does not depend on the default. -/
theorem getD_default_irrel {α : Type} (l : List α) (i : Nat) (d1 d2 : α)
    (h : i < l.length) : l.getD i d1 = l.getD i d2 := by
  rw [getD_eq_getElem l i d1 h, getD_eq_getElem l i d2 h]

/-- getD after setting the same valid index returns the new value. -/
theorem getD_set_self {α : Type} (l : List α) (i : Nat) (a d : α) (h : i < l.length) :
    (l.set i a).getD i d = a := by
  rw [List.getD_eq_getElem?_getD, List.getElem?_set_self h]
  rfl

/-- getD of a replicate with the replicated value as default. -/
theorem getD_replicate_self {α : Type} (n i : Nat) (c : α) :
    (List.replicate n c).getD i c = c := by
  by_cases h : i < n
  · rw [getD_eq_getElem _ _ _ (by simpa using h)]
    exact List.getElem_replicate c _
  · rw [List.getD_eq_getElem?_getD, List.getElem?_eq_none (by simpa using h)]
    rfl

/-- A valid getD entry is a member of the list. -/
theorem getD_mem {α : Type} (l : List α) (i : Nat) (d : α) (h : i < l.length) :
    l.getD i d ∈ l := by
  rw [getD_eq_getElem l i d h]
  exact List.getElem_mem h

/-! ## set_link lemmas -/

/-- set_link never changes the genome length. -/
theorem set_link_x_length (a : List (List Nat)) (node origin : Nat) (s : RLState) :
    (set_link a node origin s).x.length = s.x.length := by
  refine foldl_invariant _ (fun t => t.x.length = s.x.length) _ s rfl ?_
  intro t c _ ht
  dsimp only
  by_cases hc : (a.getD node []).getD c 0 = origin
  · rw [if_pos hc]
    dsimp only
    rw [List.length_set]
    exact ht
  · rw [if_neg hc]
    exact ht

/-- set_link changes no genome entry other than node. -/
theorem set_link_x_other (a : List (List Nat)) (node origin : Nat) (s : RLState)
    (v : Nat) (hv : v ≠ node) :
    (set_link a node origin s).x.getD v (-1) = s.x.getD v (-1) := by
  refine foldl_invariant _ (fun t => t.x.getD v (-1) = s.x.getD v (-1)) _ s rfl ?_
  intro t c _ ht
  dsimp only
  by_cases hc : (a.getD node []).getD c 0 = origin
  · rw [if_pos hc]
    dsimp only
    rw [getD_set_ne _ _ _ _ _ fun h => hv h.symm]
    exact ht
  · rw [if_neg hc]
    exact ht

/-- A fold of the j-loop with no matching index is the identity. -/
theorem set_link_fold_nomatch (a : List (List Nat)) (node origin : Nat) :
    ∀ (l : List Nat) (t : RLState), (∀ j ∈ l, (a.getD node []).getD j 0 ≠ origin) →
      l.foldl (fun t j => if (a.getD node []).getD j 0 = origin then
          { x := t.x.set node ((j : ℤ) + 1),
            temp_edges := t.temp_edges ++ [(node, origin)],
            binary_links := t.binary_links.set node (origin : ℤ) }
        else t) t = t := by
  intro l
  induction l with
  | nil => intro t _; rfl
  | cons j rest ih =>
    intro t hno
    rw [List.foldl_cons, if_neg (hno j (List.mem_cons_self j rest))]
    exact ih t fun j2 hj2 => hno j2 (List.mem_cons_of_mem j hj2)

/-- When some index of the processed list matches the origin, the j-loop
leaves x[node] = j + 1 for a matching j. -/
theorem set_link_fold_found (a : List (List Nat)) (node origin : Nat) :
    ∀ (l : List Nat) (t : RLState), node < t.x.length →
      (∃ j ∈ l, (a.getD node []).getD j 0 = origin) →
      ∃ j ∈ l, (a.getD node []).getD j 0 = origin ∧
        (l.foldl (fun t j => if (a.getD node []).getD j 0 = origin then
            { x := t.x.set node ((j : ℤ) + 1),
              temp_edges := t.temp_edges ++ [(node, origin)],
              binary_links := t.binary_links.set node (origin : ℤ) }
          else t) t).x.getD node (-1) = (j : ℤ) + 1 := by
  intro l
  induction l with
  | nil =>
    rintro t _ ⟨j, hj, _⟩
    exact absurd hj (List.not_mem_nil j)
  | cons j rest ih =>
    intro t hlen hex
    by_cases hj : (a.getD node []).getD j 0 = origin
    · rw [List.foldl_cons, if_pos hj]
      by_cases hrest : ∃ j2 ∈ rest, (a.getD node []).getD j2 0 = origin
      · obtain ⟨j2, hj2, hm2, hv2⟩ := ih
          { x := t.x.set node ((j : ℤ) + 1),
            temp_edges := t.temp_edges ++ [(node, origin)],
            binary_links := t.binary_links.set node (origin : ℤ) }
          (by simpa using hlen) hrest
        exact ⟨j2, List.mem_cons_of_mem j hj2, hm2, hv2⟩
      · refine ⟨j, List.mem_cons_self j rest, hj, ?_⟩
        rw [set_link_fold_nomatch a node origin rest _ fun j2 hj2 h2 => hrest ⟨j2, hj2, h2⟩]
        exact getD_set_self _ _ _ _ hlen
    · rcases hex with ⟨j2, hj2, hm2⟩
      rcases List.mem_cons.mp hj2 with h | h
      · exact absurd (h ▸ hm2) hj
      · rw [List.foldl_cons, if_neg hj]
        obtain ⟨j3, hj3, hm3, hv3⟩ := ih t hlen ⟨j2, h, hm2⟩
        exact ⟨j3, List.mem_cons_of_mem j hj3, hm3, hv3⟩

/-- set_link marks the node with a valid link when the origin occurs in
the adjacency list of the node. -/
theorem set_link_marks (a : List (List Nat)) (node origin : Nat) (s : RLState)
    (hlen : node < s.x.length) (horig : origin ∈ a.getD node []) :
    ∃ j, j < (a.getD node []).length ∧ (a.getD node []).getD j 0 = origin ∧
      (set_link a node origin s).x.getD node (-1) = (j : ℤ) + 1 := by
  obtain ⟨k, hk, hke⟩ := List.mem_iff_getElem.mp horig
  have hex : ∃ j ∈ List.range (a.getD node []).length, (a.getD node []).getD j 0 = origin :=
    ⟨k, List.mem_range.mpr hk, by rw [getD_eq_getElem _ _ _ hk]; exact hke⟩
  obtain ⟨j, hj, hm, hv⟩ := set_link_fold_found a node origin _ s hlen hex
  exact ⟨j, List.mem_range.mp hj, hm, hv⟩

/-- set_link writes no zero gene: a zero in the result was already
present. -/
theorem set_link_nozero (a : List (List Nat)) (node origin : Nat) (s : RLState)
    (v : Nat) :
    (set_link a node origin s).x.getD v (-1) = 0 → s.x.getD v (-1) = 0 := by
  refine foldl_invariant _
    (fun t => t.x.getD v (-1) = 0 → s.x.getD v (-1) = 0) _ s (fun h => h) ?_
  intro t c _ ht
  dsimp only
  by_cases hc : (a.getD node []).getD c 0 = origin
  · rw [if_pos hc]
    dsimp only
    intro hz
    by_cases hv : v = node
    · subst hv
      by_cases hb : v < t.x.length
      · rw [getD_set_self _ _ _ _ hb] at hz
        omega
      · rw [List.set_eq_of_length_le (by omega)] at hz
        exact ht hz
    · rw [getD_set_ne _ _ _ _ _ fun h => hv h.symm] at hz
      exact ht hz
  · rw [if_neg hc]
    exact ht

/-! ## Basic recursive_links lemmas -/

/-- recursive_links never changes the genome length. -/
theorem rl_x_length (a mst : List (List Nat)) :
    ∀ (fuel node origin : Nat) (s : RLState),
      (recursive_links a mst fuel node origin s).x.length = s.x.length := by
  intro fuel
  induction fuel with
  | zero => intro node origin s; rfl
  | succ fuel ih =>
    intro node origin s
    rw [recursive_links]
    by_cases hvis : s.x.getD node (-1) ≠ -1
    · rw [if_pos hvis]
    · rw [if_neg hvis]
      refine foldl_invariant (fun t c => recursive_links a mst fuel c node t)
        (fun t => t.x.length = s.x.length) (mst.getD node [])
        (set_link a node origin s) (set_link_x_length a node origin s) ?_
      intro t c _ ht
      dsimp only
      rw [ih c node t]
      exact ht

/-- recursive_links preserves every already-visited genome entry. -/
theorem rl_pers (a mst : List (List Nat)) :
    ∀ (fuel node origin : Nat) (s : RLState) (v : Nat),
      s.x.getD v (-1) ≠ -1 →
      (recursive_links a mst fuel node origin s).x.getD v (-1) = s.x.getD v (-1) := by
  intro fuel
  induction fuel with
  | zero => intro node origin s v _; rfl
  | succ fuel ih =>
    intro node origin s v hv
    rw [recursive_links]
    by_cases hvis : s.x.getD node (-1) ≠ -1
    · rw [if_pos hvis]
    · rw [if_neg hvis]
      have hvn : v ≠ node := fun h => hvis (h ▸ hv)
      have hs1 : (set_link a node origin s).x.getD v (-1) = s.x.getD v (-1) :=
        set_link_x_other a node origin s v hvn
      refine foldl_invariant _ (fun t : RLState => t.x.getD v (-1) = s.x.getD v (-1)) _ _ hs1 ?_
      intro t c _ ht
      dsimp only
      rw [ih c node t v (by rw [ht]; exact hv)]
      exact ht

/-- With fuel available, recursive_links leaves the node visited whenever
the origin occurs in the adjacency list of the node. -/
theorem rl_marks (a mst : List (List Nat)) :
    ∀ (fuel node origin : Nat) (s : RLState), 1 ≤ fuel →
      origin ∈ a.getD node [] → node < s.x.length →
      (recursive_links a mst fuel node origin s).x.getD node (-1) ≠ -1 := by
  intro fuel
  induction fuel with
  | zero => intro node origin s h; omega
  | succ fuel _
  => intro node origin s _ horig hlen
     rw [recursive_links]
     by_cases hvis : s.x.getD node (-1) ≠ -1
     · rw [if_pos hvis]
       exact hvis
     · rw [if_neg hvis]
       obtain ⟨j, _, _, hv⟩ := set_link_marks a node origin s hlen horig
       have hs1 : (set_link a node origin s).x.getD node (-1) ≠ -1 := by
         rw [hv]
         omega
       refine foldl_invariant _ (fun t : RLState => t.x.getD node (-1) ≠ -1) _ _ hs1 ?_
       intro t c _ ht
       dsimp only
       rw [rl_pers a mst fuel c node t node ht]
       exact ht

/-- recursive_links writes no zero gene: a zero in the result was already
present before the call. -/
theorem rl_nozero (a mst : List (List Nat)) :
    ∀ (fuel node origin : Nat) (s : RLState) (v : Nat),
      (recursive_links a mst fuel node origin s).x.getD v (-1) = 0 →
      s.x.getD v (-1) = 0 := by
  intro fuel
  induction fuel with
  | zero => intro node origin s v h; exact h
  | succ fuel ih =>
    intro node origin s v
    rw [recursive_links]
    by_cases hvis : s.x.getD node (-1) ≠ -1
    · rw [if_pos hvis]
      exact fun h => h
    · rw [if_neg hvis]
      intro hz
      have hfold : (recursive_links a mst (fuel + 1) node origin s).x.getD v (-1) = 0 →
          (set_link a node origin s).x.getD v (-1) = 0 := by
        rw [recursive_links, if_neg hvis]
        refine foldl_invariant (fun t c => recursive_links a mst fuel c node t)
          (fun t => t.x.getD v (-1) = 0 → (set_link a node origin s).x.getD v (-1) = 0)
          (mst.getD node []) (set_link a node origin s) (fun h => h) ?_
        intro t c _ ht
        dsimp only
        intro hz2
        exact ht (ih c node t v hz2)
      refine set_link_nozero a node origin s v (hfold ?_)
      rw [recursive_links, if_neg hvis]
      exact hz

/-! ## Chain invariant lemmas -/

/-- A parent chain survives any state change that preserves the values of
visited vertices. -/
theorem Chain_mono (a : List (List Nat)) (x y : List ℤ)
    (h : ∀ u, x.getD u (-1) ≠ -1 → y.getD u (-1) = x.getD u (-1)) :
    ∀ v, Chain a x v → Chain a y v := by
  intro v hch
  induction hch with
  | root w hw =>
    refine Chain.root w ?_
    rw [h w (by rw [hw]; omega)]
    exact hw
  | step w j hw hj _ ih =>
    refine Chain.step w j ?_ hj ih
    rw [h w (by rw [hw]; omega)]
    exact hw

/-- recursive_links preserves the chain invariant, given that the call is
made along an MST edge from a visited origin. -/
theorem rl_chainInv (a mst : List (List Nat)) (n : Nat)
    (hsym : ∀ u, u < n → ∀ v ∈ mst.getD u [], u ∈ a.getD v [])
    (hmb : ∀ u, u < n → ∀ v ∈ mst.getD u [], v < n) :
    ∀ (fuel node origin : Nat) (s : RLState),
      s.x.length = n → node < n → origin ∈ a.getD node [] →
      s.x.getD origin (-1) ≠ -1 → chainInv a s →
      chainInv a (recursive_links a mst fuel node origin s) := by
  intro fuel
  induction fuel with
  | zero => intro node origin s _ _ _ _ h; exact h
  | succ fuel ih =>
    intro node origin s hlen hnode horig hvisorig hinv
    rw [recursive_links]
    by_cases hvis : s.x.getD node (-1) ≠ -1
    · rw [if_pos hvis]
      exact hinv
    · rw [if_neg hvis]
      obtain ⟨j, hjlen, hjm, hjv⟩ := set_link_marks a node origin s (by omega) horig
      have hpres : ∀ u, s.x.getD u (-1) ≠ -1 →
          (set_link a node origin s).x.getD u (-1) = s.x.getD u (-1) := by
        intro u hu
        exact set_link_x_other a node origin s u fun h => hvis (h ▸ hu)
      have hinv1 : chainInv a (set_link a node origin s) := by
        intro v hv
        by_cases hveq : v = node
        · subst hveq
          refine Chain.step v j hjv hjlen ?_
          rw [hjm]
          exact Chain_mono a s.x _ hpres origin (hinv origin hvisorig)
        · rw [set_link_x_other a node origin s v hveq] at hv
          exact Chain_mono a s.x _ hpres v (hinv v hv)
      have hvis1 : (set_link a node origin s).x.getD node (-1) ≠ -1 := by
        rw [hjv]
        omega
      have hlen1 : (set_link a node origin s).x.length = n := by
        rw [set_link_x_length]
        exact hlen
      have hres := foldl_invariant (fun t c => recursive_links a mst fuel c node t)
        (fun t : RLState => t.x.length = n ∧ t.x.getD node (-1) ≠ -1 ∧ chainInv a t)
        (mst.getD node []) (set_link a node origin s) ⟨hlen1, hvis1, hinv1⟩ ?_
      · exact hres.2.2
      · intro t c hc ht
        obtain ⟨htlen, htvis, htinv⟩ := ht
        dsimp only
        refine ⟨?_, ?_, ?_⟩
        · rw [rl_x_length]
          exact htlen
        · rw [rl_pers a mst fuel c node t node htvis]
          exact htvis
        · exact ih c node t htlen (hmb node hnode c hc) (hsym node hnode c hc) htvis htinv

/-! ## Unvisited-count lemmas -/

/-- recursive_links never increases the unvisited count. -/
theorem rl_cnt_le (a mst : List (List Nat)) (n : Nat) :
    ∀ (fuel node origin : Nat) (s : RLState),
      unvisCnt n (recursive_links a mst fuel node origin s) ≤ unvisCnt n s := by
  intro fuel node origin s
  apply List.countP_mono_left
  intro v _ hv
  rw [decide_eq_true_eq] at hv ⊢
  by_contra hs
  rw [rl_pers a mst fuel node origin s v hs] at hv
  exact hs hv

/-- A pointwise-dominated count with one strict witness is strictly
smaller. -/
theorem countP_lt_strict {p q : Nat → Bool} :
    ∀ (l : List Nat), (∀ v ∈ l, p v = true → q v = true) →
      ∀ v0 ∈ l, q v0 = true → p v0 = false → l.countP p < l.countP q := by
  intro l
  induction l with
  | nil =>
    intro _ v0 h
    exact absurd h (List.not_mem_nil v0)
  | cons u rest ih =>
    intro hpq v0 hv0 hq hp
    rw [List.countP_cons, List.countP_cons]
    have hmono : rest.countP p ≤ rest.countP q :=
      List.countP_mono_left fun v hv => hpq v (List.mem_cons_of_mem u hv)
    rcases List.mem_cons.mp hv0 with h | h
    · subst h
      rw [hp, hq]
      simp only [if_true]
      have : ¬ (false = true) := by simp
      rw [if_neg this]
      omega
    · have hle1 : (if p u = true then 1 else 0) ≤ (if q u = true then 1 else 0) := by
        by_cases hu : p u = true
        · rw [if_pos hu, if_pos (hpq u (List.mem_cons_self u rest) hu)]
        · rw [if_neg hu]
          omega
      have := ih (fun v hv => hpq v (List.mem_cons_of_mem u hv)) v0 h hq hp
      omega

/-- Marking one unvisited vertex below n strictly decreases the unvisited
count. -/
theorem cnt_after_mark (n : Nat) (s s1 : RLState) (node : Nat) (hnode : node < n)
    (huns : s.x.getD node (-1) = -1) (hvis1 : s1.x.getD node (-1) ≠ -1)
    (hother : ∀ v, v ≠ node → s1.x.getD v (-1) = s.x.getD v (-1)) :
    unvisCnt n s1 < unvisCnt n s := by
  refine countP_lt_strict _ ?_ node (List.mem_range.mpr hnode) ?_ ?_
  · intro v _ hv
    rw [decide_eq_true_eq] at hv ⊢
    by_cases hveq : v = node
    · subst hveq
      exact absurd hv hvis1
    · rw [← hother v hveq]
      exact hv
  · rw [decide_eq_true_eq]
    exact huns
  · exact decide_eq_false hvis1

/-! ## Fold lemmas over the recursive calls on MST neighbours -/

/-- Visited values persist through a fold of recursive calls. -/
theorem rl_fold_pers (a mst : List (List Nat)) (fuel node : Nat) :
    ∀ (l : List Nat) (t : RLState) (v : Nat), t.x.getD v (-1) ≠ -1 →
      (l.foldl (fun t c => recursive_links a mst fuel c node t) t).x.getD v (-1) =
        t.x.getD v (-1) := by
  intro l t v hv
  refine foldl_invariant _ (fun u : RLState => u.x.getD v (-1) = t.x.getD v (-1)) _ _ rfl ?_
  intro u c _ hu
  dsimp only
  rw [rl_pers a mst fuel c node u v (by rw [hu]; exact hv)]
  exact hu

/-- Genome length persists through a fold of recursive calls. -/
theorem rl_fold_x_length (a mst : List (List Nat)) (fuel node : Nat) :
    ∀ (l : List Nat) (t : RLState),
      (l.foldl (fun t c => recursive_links a mst fuel c node t) t).x.length =
        t.x.length := by
  intro l t
  refine foldl_invariant _ (fun u : RLState => u.x.length = t.x.length) _ _ rfl ?_
  intro u c _ hu
  dsimp only
  rw [rl_x_length]
  exact hu

/-- The unvisited count never increases through a fold of recursive
calls. -/
theorem rl_fold_cnt_le (a mst : List (List Nat)) (n fuel node : Nat) :
    ∀ (l : List Nat) (t : RLState),
      unvisCnt n (l.foldl (fun t c => recursive_links a mst fuel c node t) t) ≤
        unvisCnt n t := by
  intro l t
  refine foldl_invariant _ (fun u : RLState => unvisCnt n u ≤ unvisCnt n t) _ _ le_rfl ?_
  intro u c _ hu
  dsimp only
  exact le_trans (rl_cnt_le a mst n fuel c node u) hu

/-- After folding the recursive calls over a list of MST neighbours of the
node, every neighbour in the list is visited. -/
theorem rl_fold_marks (a mst : List (List Nat)) (n fuel node : Nat) (hfuel : 1 ≤ fuel) :
    ∀ (l : List Nat) (t : RLState), t.x.length = n →
      (∀ c ∈ l, c < n ∧ node ∈ a.getD c []) →
      ∀ c ∈ l, (l.foldl (fun t c => recursive_links a mst fuel c node t) t).x.getD c (-1) ≠ -1 := by
  intro l
  induction l with
  | nil =>
    intro t _ _ c hc
    exact absurd hc (List.not_mem_nil c)
  | cons c rest ih =>
    intro t htlen hcond d hd
    rw [List.foldl_cons]
    have hc := hcond c (List.mem_cons_self c rest)
    have ht2len : (recursive_links a mst fuel c node t).x.length = n := by
      rw [rl_x_length]
      exact htlen
    rcases List.mem_cons.mp hd with h | h
    · subst h
      have hvis2 : (recursive_links a mst fuel d node t).x.getD d (-1) ≠ -1 :=
        rl_marks a mst fuel d node t hfuel hc.2 (by omega)
      rw [rl_fold_pers a mst fuel node rest _ d hvis2]
      exact hvis2
    · exact ih _ ht2len (fun c2 hc2 => hcond c2 (List.mem_cons_of_mem c hc2)) d h

/-- Closure through a fold of recursive calls, given closure of each
single call: every vertex visited by the fold was either already visited
or has all its MST neighbours visited at the end of the fold. -/
theorem rl_fold_closure (a mst : List (List Nat)) (n fuel node : Nat)
    (hcl : ∀ (node2 origin2 : Nat) (s : RLState), s.x.length = n → node2 < n →
      origin2 ∈ a.getD node2 [] → unvisCnt n s + 1 ≤ fuel →
      ∀ v, (recursive_links a mst fuel node2 origin2 s).x.getD v (-1) ≠ -1 →
        s.x.getD v (-1) ≠ -1 ∨
        ∀ d ∈ mst.getD v [], (recursive_links a mst fuel node2 origin2 s).x.getD d (-1) ≠ -1) :
    ∀ (l : List Nat) (t : RLState), t.x.length = n →
      (∀ c ∈ l, c < n ∧ node ∈ a.getD c []) → unvisCnt n t + 1 ≤ fuel →
      ∀ v, (l.foldl (fun t c => recursive_links a mst fuel c node t) t).x.getD v (-1) ≠ -1 →
        t.x.getD v (-1) ≠ -1 ∨
        ∀ d ∈ mst.getD v [],
          (l.foldl (fun t c => recursive_links a mst fuel c node t) t).x.getD d (-1) ≠ -1 := by
  intro l
  induction l with
  | nil =>
    intro t _ _ _ v hv
    exact Or.inl hv
  | cons c rest ih =>
    intro t htlen hcond hcnt v hv
    rw [List.foldl_cons] at hv ⊢
    have hc := hcond c (List.mem_cons_self c rest)
    have ht2len : (recursive_links a mst fuel c node t).x.length = n := by
      rw [rl_x_length]
      exact htlen
    have ht2cnt : unvisCnt n (recursive_links a mst fuel c node t) + 1 ≤ fuel := by
      have := rl_cnt_le a mst n fuel c node t
      omega
    rcases ih _ ht2len (fun c2 hc2 => hcond c2 (List.mem_cons_of_mem c hc2)) ht2cnt v hv with
      hvt2 | hclosed
    · rcases hcl c node t htlen hc.1 hc.2 hcnt v hvt2 with hvt | hcl2
      · exact Or.inl hvt
      · refine Or.inr fun d hd => ?_
        rw [rl_fold_pers a mst fuel node rest _ d (hcl2 d hd)]
        exact hcl2 d hd
    · exact Or.inr hclosed

/-- Closure of a single recursive_links call with sufficient fuel: every
vertex it visits was either already visited or ends with all its MST
neighbours visited. -/
theorem rl_closure (a mst : List (List Nat)) (n : Nat)
    (hsym : ∀ u, u < n → ∀ v ∈ mst.getD u [], u ∈ a.getD v [])
    (hmb : ∀ u, u < n → ∀ v ∈ mst.getD u [], v < n) :
    ∀ (fuel node origin : Nat) (s : RLState), s.x.length = n → node < n →
      origin ∈ a.getD node [] → unvisCnt n s + 1 ≤ fuel →
      ∀ v, (recursive_links a mst fuel node origin s).x.getD v (-1) ≠ -1 →
        s.x.getD v (-1) ≠ -1 ∨
        ∀ d ∈ mst.getD v [], (recursive_links a mst fuel node origin s).x.getD d (-1) ≠ -1 := by
  intro fuel
  induction fuel with
  | zero =>
    intro node origin s _ _ _ hcnt
    omega
  | succ fuel ih =>
    intro node origin s hlen hnode horig hcnt v hv
    rw [recursive_links] at hv ⊢
    by_cases hvis : s.x.getD node (-1) ≠ -1
    · rw [if_pos hvis] at hv ⊢
      exact Or.inl hv
    · rw [if_neg hvis] at hv ⊢
      obtain ⟨j, hjlen, hjm, hjv⟩ := set_link_marks a node origin s (by omega) horig
      have hvis1 : (set_link a node origin s).x.getD node (-1) ≠ -1 := by
        rw [hjv]
        omega
      have hs1len : (set_link a node origin s).x.length = n := by
        rw [set_link_x_length]
        exact hlen
      have hdec : unvisCnt n (set_link a node origin s) < unvisCnt n s :=
        cnt_after_mark n s _ node hnode (by omega) hvis1
          (set_link_x_other a node origin s)
      have hfuel1 : 1 ≤ fuel := by omega
      rcases rl_fold_closure a mst n fuel node
          (fun n2 o2 s2 h1 h2 h3 h4 => ih n2 o2 s2 h1 h2 h3 h4)
          (mst.getD node []) (set_link a node origin s) hs1len
          (fun c hc => ⟨hmb node hnode c hc, hsym node hnode c hc⟩) (by omega) v hv with
        hvs1 | hclosed
      · by_cases hveq : v = node
        · subst hveq
          exact Or.inr fun d hd =>
            rl_fold_marks a mst n fuel v hfuel1 (mst.getD v []) _ hs1len
              (fun c hc => ⟨hmb v hnode c hc, hsym v hnode c hc⟩) d hd
        · rw [set_link_x_other a node origin s v hveq] at hvs1
          exact Or.inl hvs1
      · exact Or.inr hclosed

/-! ## MST reachability -/

/-- Everything reachable in the MST lies in every MST-closed set
containing vertex 0. -/
theorem reachN_subset_closed (mst : List (List Nat)) (P : Nat → Prop)
    (h0 : P 0) (hcl : ∀ u, P u → ∀ d ∈ mst.getD u [], P d) :
    ∀ (k v : Nat), v ∈ reachN mst k → P v := by
  intro k
  induction k with
  | zero =>
    intro v hv
    rw [reachN] at hv
    rcases List.mem_singleton.mp hv with rfl
    exact h0
  | succ k ih =>
    intro v hv
    rw [reachN, reachStep] at hv
    rcases List.mem_append.mp hv with h | h
    · exact ih v h
    · obtain ⟨u, hu, hvu⟩ := List.mem_flatMap.mp (List.mem_filter.mp h).1
      exact hcl u (ih u hu) v hvu

/-! ## Properties of the full seeding -/

/-- The seeding loop is the identity on a state where every index of the
remaining worklist is visited. -/
theorem seedFold_id (a mst : List (List Nat)) (fuel : Nat) :
    ∀ (l : List Nat) (t : RLState), (∀ i ∈ l, t.x.getD i (-1) ≠ -1) →
      l.foldl (seedStep a mst fuel) t = t := by
  intro l
  induction l with
  | nil => intro t _; rfl
  | cons i rest ih =>
    intro t hvis
    rw [List.foldl_cons]
    have hstep : seedStep a mst fuel t i = t := by
      rw [seedStep, if_neg (hvis i (List.mem_cons_self i rest))]
    rw [hstep]
    exact ih t fun i2 hi2 => hvis i2 (List.mem_cons_of_mem i hi2)

/-- The state produced by the full MST seeding with fuel n + 1: the genome
has length n, every vertex is visited, every vertex has a parent chain,
and only vertex 0 carries the root gene 0. -/
theorem initializeSeed_props (a mst : List (List Nat)) (n : Nat) (hn : 1 ≤ n)
    (hsym : ∀ u, u < n → ∀ v ∈ mst.getD u [], u ∈ a.getD v [])
    (hmb : ∀ u, u < n → ∀ v ∈ mst.getD u [], v < n)
    (hconn : ∀ v, v < n → v ∈ reachN mst n) :
    (initializeSeed a mst n (n + 1)).x.length = n ∧
    (∀ v, v < n → (initializeSeed a mst n (n + 1)).x.getD v (-1) ≠ -1) ∧
    chainInv a (initializeSeed a mst n (n + 1)) ∧
    (∀ v, (initializeSeed a mst n (n + 1)).x.getD v (-1) = 0 → v = 0) := by
  obtain ⟨m, rfl⟩ : ∃ m, n = m + 1 := ⟨n - 1, by omega⟩
  set n := m + 1 with hndef
  -- the first iteration of the outer loop roots vertex 0
  have hinit0 : (initState n).x.getD 0 (-1) = -1 := getD_replicate_self n 0 (-1)
  have hs0 : seedStep a mst (n + 1) (initState n) 0 =
      (mst.getD 0 []).foldl (fun t c => recursive_links a mst (n + 1) c 0 t)
        { initState n with x := (initState n).x.set 0 0 } := by
    rw [seedStep, if_pos hinit0]
  -- properties of the rooted state s0
  have hs0len : ({ initState n with x := (initState n).x.set 0 0 } : RLState).x.length = n := by
    simp [initState]
  have hs0zero : ({ initState n with x := (initState n).x.set 0 0 } : RLState).x.getD 0 (-1) = 0 :=
    getD_set_self _ _ _ _ (by simp [initState])
  have hs0other : ∀ v, v ≠ 0 →
      ({ initState n with x := (initState n).x.set 0 0 } : RLState).x.getD v (-1) = -1 := by
    intro v hv
    have := getD_set_ne (initState n).x 0 v (0 : ℤ) (-1) fun h => hv h.symm
    rw [this]
    exact getD_replicate_self n v (-1)
  have hs0chain : chainInv a { initState n with x := (initState n).x.set 0 0 } := by
    intro v hv
    by_cases hveq : v = 0
    · subst hveq
      exact Chain.root 0 hs0zero
    · exact absurd (hs0other v hveq) hv
  have hs0cnt : unvisCnt n { initState n with x := (initState n).x.set 0 0 } + 1 ≤ n + 1 := by
    have h1 : unvisCnt n { initState n with x := (initState n).x.set 0 0 } ≤
        (List.range n).length := List.countP_le_length _
    rw [List.length_range] at h1
    omega
  have hcond0 : ∀ c ∈ mst.getD 0 [], c < n ∧ 0 ∈ a.getD c [] :=
    fun c hc => ⟨hmb 0 (by omega) c hc, hsym 0 (by omega) c hc⟩
  -- T0 : the state after the first outer iteration
  have hT0len : (seedStep a mst (n + 1) (initState n) 0).x.length = n := by
    rw [hs0, rl_fold_x_length]
    exact hs0len
  have hT0zero : (seedStep a mst (n + 1) (initState n) 0).x.getD 0 (-1) = 0 := by
    rw [hs0, rl_fold_pers a mst (n + 1) 0 _ _ 0 (by rw [hs0zero]; omega)]
    exact hs0zero
  have hT0marks : ∀ c ∈ mst.getD 0 [],
      (seedStep a mst (n + 1) (initState n) 0).x.getD c (-1) ≠ -1 := by
    rw [hs0]
    exact fun c hc => rl_fold_marks a mst n (n + 1) 0 (by omega) _ _ hs0len hcond0 c hc
  have hT0closed : ∀ v, (seedStep a mst (n + 1) (initState n) 0).x.getD v (-1) ≠ -1 →
      ∀ d ∈ mst.getD v [], (seedStep a mst (n + 1) (initState n) 0).x.getD d (-1) ≠ -1 := by
    intro v hv
    rw [hs0] at hv
    rcases rl_fold_closure a mst n (n + 1) 0
        (rl_closure a mst n hsym hmb (n + 1)) (mst.getD 0 []) _ hs0len hcond0
        (by omega) v hv with hvs0 | hcl
    · by_cases hveq : v = 0
      · subst hveq
        intro d hd
        exact hT0marks d hd
      · exact absurd (hs0other v hveq) hvs0
    · intro d hd
      rw [hs0]
      exact hcl d hd
  have hT0chain : chainInv a (seedStep a mst (n + 1) (initState n) 0) := by
    rw [hs0]
    have hres := foldl_invariant (fun t c => recursive_links a mst (n + 1) c 0 t)
      (fun t : RLState => t.x.length = n ∧ t.x.getD 0 (-1) ≠ -1 ∧ chainInv a t)
      (mst.getD 0 []) { initState n with x := (initState n).x.set 0 0 }
      ⟨hs0len, by rw [hs0zero]; omega, hs0chain⟩ ?_
    · exact hres.2.2
    · intro t c hc ht
      obtain ⟨htlen, htvis, htinv⟩ := ht
      dsimp only
      refine ⟨?_, ?_, ?_⟩
      · rw [rl_x_length]
        exact htlen
      · rw [rl_pers a mst (n + 1) c 0 t 0 htvis]
        exact htvis
      · exact rl_chainInv a mst n hsym hmb (n + 1) c 0 t htlen
          (hcond0 c hc).1 (hcond0 c hc).2 htvis htinv
  have hT0nozero : ∀ v, (seedStep a mst (n + 1) (initState n) 0).x.getD v (-1) = 0 → v = 0 := by
    rw [hs0]
    have hres := foldl_invariant (fun t c => recursive_links a mst (n + 1) c 0 t)
      (fun t : RLState => ∀ v, t.x.getD v (-1) = 0 → v = 0)
      (mst.getD 0 []) { initState n with x := (initState n).x.set 0 0 } ?base ?step
    · exact hres
    case base =>
      intro v hv
      by_contra hveq
      rw [hs0other v hveq] at hv
      omega
    case step =>
      intro t c _ ht
      dsimp only
      intro v hv
      exact ht v (rl_nozero a mst (n + 1) c 0 t v hv)
  have hT0all : ∀ v, v < n → (seedStep a mst (n + 1) (initState n) 0).x.getD v (-1) ≠ -1 := by
    intro v hvn
    refine reachN_subset_closed mst
      (fun v => (seedStep a mst (n + 1) (initState n) 0).x.getD v (-1) ≠ -1)
      (by dsimp only; rw [hT0zero]; omega) hT0closed n v (hconn v hvn)
  -- the remaining outer iterations are the identity
  have hsplit : initializeSeed a mst n (n + 1) = seedStep a mst (n + 1) (initState n) 0 := by
    rw [initializeSeed, hndef, List.range_succ_eq_map, List.foldl_cons]
    refine seedFold_id a mst (n + 1) _ _ ?_
    intro i hi
    obtain ⟨t, ht, rfl⟩ := List.mem_map.mp hi
    have htm := List.mem_range.mp ht
    exact hT0all (Nat.succ t) (by omega)
  rw [hsplit]
  exact ⟨hT0len, hT0all, hT0chain, hT0nozero⟩

/-! ## Decoded edges of a genome -/

/-- The edge accumulator only grows: the final edge list contains every
edge already accumulated. -/
theorem bse_aux_sub (adj : List (List Nat)) (x : List ℤ) :
    ∀ (l : List Nat) (es r : List (Nat × Nat)),
      buildSolEdgesAux adj x l es = Except.ok r → ∀ e ∈ es, e ∈ r := by
  intro l
  induction l with
  | nil =>
    intro es r hok e he
    simp only [buildSolEdgesAux, Except.ok.injEq] at hok
    rw [← hok]
    exact he
  | cons i rest ih =>
    intro es r hok e he
    by_cases hpos : 0 < x.getD i 0
    · by_cases hidx : (x.getD i 0 - 1).toNat < (adj.getD i []).length
      · simp only [buildSolEdgesAux, if_pos hpos, if_pos hidx] at hok
        exact ih _ r hok e (List.mem_append_left _ he)
      · simp only [buildSolEdgesAux, if_pos hpos, if_neg hidx] at hok
        exact absurd hok (by simp)
    · simp only [buildSolEdgesAux, if_neg hpos] at hok
      exact ih _ r hok e he

/-- Every processed vertex with a positive in-range gene contributes its
selected edge to the result. -/
theorem bse_aux_mem (adj : List (List Nat)) (x : List ℤ) :
    ∀ (l : List Nat) (es r : List (Nat × Nat)),
      buildSolEdgesAux adj x l es = Except.ok r →
      ∀ i ∈ l, ∀ j : Nat, x.getD i 0 = (j : ℤ) + 1 → j < (adj.getD i []).length →
        (i, (adj.getD i []).getD j 0) ∈ r := by
  intro l
  induction l with
  | nil =>
    intro es r _ i hi
    exact absurd hi (List.not_mem_nil i)
  | cons i0 rest ih =>
    intro es r hok i hi j hx hj
    rcases List.mem_cons.mp hi with h | h
    · cases h
      have hpos : 0 < x.getD i0 0 := by rw [hx]; omega
      have hidx2 : (x.getD i0 0 - 1).toNat = j := by rw [hx]; simp
      have hidx : (x.getD i0 0 - 1).toNat < (adj.getD i0 []).length := by rw [hidx2]; exact hj
      simp only [buildSolEdgesAux, if_pos hpos, if_pos hidx] at hok
      have hedge : (i0, (adj.getD i0 []).getD (x.getD i0 0 - 1).toNat 0) ∈
          es ++ [(i0, (adj.getD i0 []).getD (x.getD i0 0 - 1).toNat 0)] :=
        List.mem_append_right _ (List.mem_singleton.mpr rfl)
      have hres := bse_aux_sub adj x rest _ r hok _ hedge
      rw [hidx2] at hres
      exact hres
    · by_cases hpos : 0 < x.getD i0 0
      · by_cases hidx : (x.getD i0 0 - 1).toNat < (adj.getD i0 []).length
        · simp only [buildSolEdgesAux, if_pos hpos, if_pos hidx] at hok
          exact ih _ r hok i h j hx hj
        · simp only [buildSolEdgesAux, if_pos hpos, if_neg hidx] at hok
          exact absurd hok (by simp)
      · simp only [buildSolEdgesAux, if_neg hpos] at hok
        exact ih _ r hok i h j hx hj

/-- A genome whose genes do not exceed the neighbour counts decodes
without error. -/
theorem buildSolEdges_ok_of_range (adj : List (List Nat)) (x : List ℤ)
    (hrange : ∀ i, i < adj.length → x.getD i 0 ≤ ((adj.getD i []).length : ℤ)) :
    ∃ es, buildSolEdges adj x = Except.ok es := by
  rcases hres : buildSolEdges adj x with e | es
  · obtain ⟨i, hi, hlt⟩ :=
      (buildSolEdgesAux_error_iff adj x (List.range adj.length) []).mp ⟨e, hres⟩
    have := hrange i (List.mem_range.mp hi)
    omega
  · exact ⟨es, rfl⟩

/-! ## Component labels of connected genomes -/

/-- getD of a mapped list with a valid index. -/
theorem getD_map_valid {α β : Type} (f : α → β) (l : List α) (i : Nat) (d : β)
    (h : i < l.length) : (l.map f).getD i d = f l[i] := by
  rw [List.getD_eq_getElem?_getD, List.getElem?_map, List.getElem?_eq_getElem h]
  rfl

/-- Merging an edge equates the labels of its endpoints. -/
theorem mergeEdge_connects (ls : List Nat) (p q : Nat)
    (hp : p < ls.length) (hq : q < ls.length) :
    (mergeEdge ls (p, q)).getD p 0 = (mergeEdge ls (p, q)).getD q 0 := by
  simp only [mergeEdge]
  rw [getD_map_valid _ ls p 0 hp, getD_map_valid _ ls q 0 hq]
  simp only [getD_eq_getElem ls p 0 hp, getD_eq_getElem ls q 0 hq]
  by_cases h : ls[q] = ls[p]
  · simp [h]
  · simp [h]

/-- Merging any edge preserves an existing label equality. -/
theorem mergeEdge_pres (ls : List Nat) (e : Nat × Nat) (u v : Nat)
    (hu : u < ls.length) (hv : v < ls.length) (heq : ls.getD u 0 = ls.getD v 0) :
    (mergeEdge ls e).getD u 0 = (mergeEdge ls e).getD v 0 := by
  simp only [mergeEdge]
  rw [getD_map_valid _ ls u 0 hu, getD_map_valid _ ls v 0 hv]
  rw [getD_eq_getElem ls u 0 hu, getD_eq_getElem ls v 0 hv] at heq
  simp only [heq]

/-- Folding merges preserves an existing label equality. -/
theorem mergeEdge_foldl_pres (u v : Nat) :
    ∀ (l : List (Nat × Nat)) (ls : List Nat), u < ls.length → v < ls.length →
      ls.getD u 0 = ls.getD v 0 →
      (l.foldl mergeEdge ls).getD u 0 = (l.foldl mergeEdge ls).getD v 0 := by
  intro l
  induction l with
  | nil => intro ls _ _ h; exact h
  | cons e rest ih =>
    intro ls hu hv heq
    rw [List.foldl_cons]
    exact ih (mergeEdge ls e) (by rw [mergeEdge_length]; exact hu)
      (by rw [mergeEdge_length]; exact hv) (mergeEdge_pres ls e u v hu hv heq)

/-- Endpoints of any processed edge end with equal labels. -/
theorem mergeLabels_connects (n p q : Nat) (hp : p < n) (hq : q < n) :
    ∀ (edges : List (Nat × Nat)), (p, q) ∈ edges →
      (mergeLabels n edges).getD p 0 = (mergeLabels n edges).getD q 0 := by
  have key : ∀ (l : List (Nat × Nat)) (ls : List Nat), ls.length = n → (p, q) ∈ l →
      (l.foldl mergeEdge ls).getD p 0 = (l.foldl mergeEdge ls).getD q 0 := by
    intro l
    induction l with
    | nil =>
      intro ls _ h
      exact absurd h (List.not_mem_nil _)
    | cons e rest ih =>
      intro ls hlen hm
      rw [List.foldl_cons]
      rcases List.mem_cons.mp hm with h | h
      · rw [← h]
        exact mergeEdge_foldl_pres p q rest _ (by rw [mergeEdge_length]; omega)
          (by rw [mergeEdge_length]; omega)
          (mergeEdge_connects ls p q (by omega) (by omega))
      · exact ih (mergeEdge ls e) (by rw [mergeEdge_length]; exact hlen) h
  intro edges hm
  exact key edges (List.range n) (List.length_range n) hm

/-- Every vertex with a parent chain shares its component label with
vertex 0. -/
theorem chain_labels_eq (a : List (List Nat)) (x : List ℤ) (es : List (Nat × Nat)) (n : Nat)
    (hn : n = a.length) (hxlen : x.length = n)
    (hab : ∀ u, u < n → ∀ w ∈ a.getD u [], w < n)
    (hok : buildSolEdges a x = Except.ok es)
    (hzero : ∀ v, x.getD v (-1) = 0 → v = 0) :
    ∀ v, Chain a x v → v < n →
      (mergeLabels n es).getD v 0 = (mergeLabels n es).getD 0 0 := by
  intro v hch
  induction hch with
  | root w hw =>
    intro _
    rw [hzero w hw]
  | step w j hw hj _ ih =>
    intro hwn
    have hpn : (a.getD w []).getD j 0 < n := hab w hwn _ (getD_mem _ _ _ hj)
    have hx0 : x.getD w 0 = (j : ℤ) + 1 := by
      rw [getD_default_irrel x w 0 (-1) (by omega)]
      exact hw
    have hmem : (w, (a.getD w []).getD j 0) ∈ es := by
      refine bse_aux_mem a x (List.range a.length) [] es hok w ?_ j hx0 hj
      rw [List.mem_range]
      omega
    rw [mergeLabels_connects n w _ hwn hpn es hmem]
    exact ih hpn

/-- A list of length n whose entries below n all equal c is replicate n
c. -/
theorem list_eq_replicate_of_getD (ls : List Nat) (n c : Nat) (hlen : ls.length = n)
    (h : ∀ v, v < n → ls.getD v 0 = c) : ls = List.replicate n c := by
  refine List.ext_getElem (by simp [hlen]) ?_
  intro i h1 h2
  rw [List.getElem_replicate, ← getD_eq_getElem ls i 0 h1]
  exact h i (by omega)

/-- Dense relabeling of a constant list with the constant already seen. -/
theorem denseAux_const (c : Nat) :
    ∀ m, denseAux [c] (List.replicate m c) = List.replicate m 0 := by
  intro m
  induction m with
  | zero => rfl
  | succ k ih =>
    rw [List.replicate_succ, denseAux, if_pos (List.mem_singleton.mpr rfl), ih]
    simp [List.replicate_succ]

/-- Dense relabeling of a nonempty constant list is all zeros. -/
theorem denseLabels_replicate (n c : Nat) (hn : 1 ≤ n) :
    denseLabels (List.replicate n c) = List.replicate n 0 := by
  obtain ⟨m, rfl⟩ : ∃ m, n = m + 1 := ⟨n - 1, by omega⟩
  rw [List.replicate_succ, denseLabels, denseAux, if_neg (List.not_mem_nil c)]
  simp only [List.length_nil, List.nil_append]
  rw [denseAux_const, List.replicate_succ]

/-- The maximum entry of an all-zero list is zero. -/
theorem foldr_max_replicate_zero : ∀ n : Nat, (List.replicate n 0).foldr max 0 = 0 := by
  intro n
  induction n with
  | zero => rfl
  | succ k ih =>
    rw [List.replicate_succ, List.foldr_cons, ih]
    simp

/-! ## Claim C6 -/

/-- Claim C6: on every nonempty graph (adjacency list a) whose MST
(adjacency list mst, a subgraph of the graph by hsym, spanning by hconn)
is connected, the MST-seeded genome of initialize_pop decodes to exactly
one community containing all vertices: num_clusters = 1 and every vertex
is assigned community 0. -/
theorem C6_mst_seed_single_community (a mst : List (List Nat))
    (hn : 1 ≤ a.length)
    (hab : ∀ u, u < a.length → ∀ v ∈ a.getD u [], v < a.length)
    (hmb : ∀ u, u < a.length → ∀ v ∈ mst.getD u [], v < a.length)
    (hsym : ∀ u, u < a.length → ∀ v ∈ mst.getD u [], u ∈ a.getD v [])
    (hconn : ∀ v, v < a.length → v ∈ reachN mst a.length) :
    ∃ m, evaluate_decode a (seedX a mst) = Except.ok m ∧ num_clusters m = 1 ∧
      ∀ v, v < a.length → m.getD v 0 = 0 := by
  obtain ⟨hxlen, hall, hchain, hzero⟩ := initializeSeed_props a mst a.length hn hsym hmb hconn
  have hrange : ∀ i, i < a.length →
      (seedX a mst).getD i 0 ≤ ((a.getD i []).length : ℤ) := by
    intro i hi
    have hchi := hchain i (hall i hi)
    have hdef : (seedX a mst).getD i 0 = (seedX a mst).getD i (-1) := by
      refine getD_default_irrel _ i 0 (-1) ?_
      have : (seedX a mst).length = a.length := hxlen
      omega
    cases hchi with
    | root _ hw =>
      rw [hdef]
      rw [show (initializeSeed a mst a.length (a.length + 1)).x.getD i (-1) =
        (seedX a mst).getD i (-1) from rfl] at hw
      rw [hw]
      omega
    | step _ j hw hj _ =>
      rw [hdef]
      rw [show (initializeSeed a mst a.length (a.length + 1)).x.getD i (-1) =
        (seedX a mst).getD i (-1) from rfl] at hw
      rw [hw]
      omega
  obtain ⟨es, hok⟩ := buildSolEdges_ok_of_range a (seedX a mst) hrange
  have hlab : ∀ v, v < a.length →
      (mergeLabels a.length es).getD v 0 = (mergeLabels a.length es).getD 0 0 := by
    intro v hv
    exact chain_labels_eq a (seedX a mst) es a.length rfl hxlen hab hok hzero v
      (hchain v (hall v hv)) hv
  have hrep : mergeLabels a.length es =
      List.replicate a.length ((mergeLabels a.length es).getD 0 0) :=
    list_eq_replicate_of_getD _ _ _ (mergeLabels_length _ _) hlab
  refine ⟨clusters_membership a.length es, ?_, ?_, ?_⟩
  · rw [evaluate_decode, hok]
    rfl
  · rw [clusters_membership, hrep, denseLabels_replicate _ _ hn, num_clusters,
      foldr_max_replicate_zero]
  · intro v _
    rw [clusters_membership, hrep, denseLabels_replicate _ _ hn]
    exact getD_replicate_self a.length v 0

/-- Witness for claim C6 at a concrete input: the two-vertex path graph
with its (only) spanning tree seeds a genome decoding to one community. -/
theorem C6_mst_seed_single_community_witness :
    ∃ m, evaluate_decode [[1], [0]] (seedX [[1], [0]] [[1], [0]]) = Except.ok m ∧
      num_clusters m = 1 ∧ ∀ v, v < 2 → m.getD v 0 = 0 :=
  C6_mst_seed_single_community [[1], [0]] [[1], [0]] (by decide) (by decide) (by decide)
    (by decide) (by decide)

end MooMulticriteria
